import Mathlib

/-!
Shallow embedding, in Lean 4, of the core text-processing functions of the
genomics-daily repository (`genomics-daily.py` and `genomics-daily-bot.py`),
together with theorems settling the specification claims about them.

Strings are modelled as `List Char` (Python `str` is a sequence of Unicode
code points, and Python `len` counts code points, exactly as `List.length`
does here).  Python regular-expression substitutions used by the code
(`re.sub(r'@\w+', '', s)`, `re.sub(r'#\w+', '', s)`, and
`re.sub('<[^<]+?>', '', s)`) are modelled by explicit recursive scanners
with the same leftmost, non-overlapping match semantics.  `\w` is modelled
by `isWordChar` (ASCII alphanumerics and underscore).
-/

namespace GenomicsDaily

/-- Model of the `\w` character class of Python regular expressions
(restricted to ASCII alphanumerics plus underscore). -/
def isWordChar (c : Char) : Bool := c.isAlphanum || c = '_'

/-- Scanner implementing Python `re.sub(pat + r'\w+', '', s)` for a
single-character literal `pat` (`'@'` or `'#'` in the source).  The Boolean
state is `true` while the scanner is deleting the maximal run of word
characters of a match.  Matches are leftmost and non-overlapping, and the
deleted run is greedy, as for the Python regex engine. -/
def subRemoveAux (pat : Char) : List Char → Bool → List Char
  | [], _ => []
  | c :: rest, true =>
    if isWordChar c then subRemoveAux pat rest true
    else if c = pat ∧ isWordChar (rest.headD ' ') then subRemoveAux pat rest true
    else c :: subRemoveAux pat rest false
  | c :: rest, false =>
    if c = pat ∧ isWordChar (rest.headD ' ') then subRemoveAux pat rest true
    else c :: subRemoveAux pat rest false

/-- `subRemove pat s` models Python `re.sub(pat + r'\w+', '', s)`. -/
def subRemove (pat : Char) (l : List Char) : List Char := subRemoveAux pat l false

/-- `hasHashMatch s` is `true` iff `s` contains a substring matching the
Python regex `#\w+`, i.e. a `'#'` immediately followed by a word character. -/
def hasHashMatch : List Char → Bool
  | [] => false
  | c :: rest => (c = '#' && isWordChar (rest.headD ' ')) || hasHashMatch rest

/-- The fallback sentence of `prepare_tweet` (`genomics-daily-bot.py`,
line 75).  Its `List.length` is 38, matching Python's `len` of the literal
(the DNA emoji is a single code point). -/
def fallbackSentence : List Char := "Check out the latest genomics news! 🧬 ".data

/-- Embedding of `prepare_tweet` (`genomics-daily-bot.py`, lines 69-76):
strip `@\w+` mentions, append `' ' + url`, and if the result exceeds 300
characters strip `#\w+` hashtags; if it still exceeds 300 characters,
substitute the fallback sentence followed by the url. -/
def prepare_tweet (tweet : List Char) (url : List Char := []) : List Char :=
  let ft := subRemove '@' tweet ++ (' ' :: url)
  if ft.length > 300 then
    let ft2 := subRemove '#' ft
    if ft2.length > 300 then fallbackSentence ++ url else ft2
  else ft

/-- C1: for every tweet and url with `len(fallback) + len(url) ≤ 300`,
`prepare_tweet` returns a string of at most 300 characters. -/
theorem prepare_tweet_length_le_300 (tweet url : List Char)
    (h : fallbackSentence.length + url.length ≤ 300) :
    (prepare_tweet tweet url).length ≤ 300 := by
  simp only [prepare_tweet]
  split
  · split
    · rw [List.length_append]; omega
    · omega
  · omega

/-- Witness for C1 at a concrete tweet and url. -/
theorem prepare_tweet_length_le_300_witness :
    fallbackSentence.length + "u".data.length ≤ 300 ∧
      (prepare_tweet "hello @x #tag".data "u".data).length ≤ 300 :=
  ⟨by decide, prepare_tweet_length_le_300 "hello @x #tag".data "u".data (by decide)⟩

/-- If a string contains no match of `#\w+`, the hashtag-stripping pass
leaves it unchanged. -/
theorem subRemoveAux_of_hasHashMatch_eq_false (l : List Char)
    (h : hasHashMatch l = false) : subRemoveAux '#' l false = l := by
  induction l with
  | nil => rfl
  | cons c rest ih =>
    rw [hasHashMatch, Bool.or_eq_false_iff] at h
    obtain ⟨h1, h2⟩ := h
    rw [subRemoveAux, if_neg (by simpa using h1), ih h2]

/-- Stripping `#\w+` matches from `a ++ ' ' :: b` leaves a string of the
form `u ++ ' ' :: subRemoveAux '#' b false`: no match started in `a` can
consume the separating space, so the part after the space is processed
independently. -/
theorem subRemoveAux_append_space (b : List Char) :
    ∀ (a : List Char) (flag : Bool),
      ∃ u, subRemoveAux '#' (a ++ ' ' :: b) flag =
        u ++ ' ' :: subRemoveAux '#' b false := by
  intro a
  induction a with
  | nil =>
    intro flag
    refine ⟨[], ?_⟩
    cases flag <;> simp [subRemoveAux, isWordChar]
  | cons c a' ih =>
    intro flag
    cases flag with
    | true =>
      by_cases hw : isWordChar c
      · obtain ⟨u, hu⟩ := ih true
        exact ⟨u, by rw [List.cons_append, subRemoveAux, if_pos hw, hu]⟩
      · by_cases hm : c = '#' ∧ isWordChar ((a' ++ ' ' :: b).headD ' ')
        · obtain ⟨u, hu⟩ := ih true
          exact ⟨u, by rw [List.cons_append, subRemoveAux, if_neg hw, if_pos hm, hu]⟩
        · obtain ⟨u, hu⟩ := ih false
          exact ⟨c :: u, by rw [List.cons_append, subRemoveAux, if_neg hw, if_neg hm, hu,
            List.cons_append]⟩
    | false =>
      by_cases hm : c = '#' ∧ isWordChar ((a' ++ ' ' :: b).headD ' ')
      · obtain ⟨u, hu⟩ := ih true
        exact ⟨u, by rw [List.cons_append, subRemoveAux, if_pos hm, hu]⟩
      · obtain ⟨u, hu⟩ := ih false
        exact ⟨c :: u, by rw [List.cons_append, subRemoveAux, if_neg hm, hu,
          List.cons_append]⟩

/-- C10: for every tweet, and every url containing no substring matching
`#\w+`, the result of `prepare_tweet` ends with the url, in all three
branches (plain append, hashtag-stripped, fallback substitution). -/
theorem prepare_tweet_ends_with_url (tweet url : List Char)
    (h : hasHashMatch url = false) : url <:+ prepare_tweet tweet url := by
  simp only [prepare_tweet]
  split
  · split
    · exact ⟨fallbackSentence, rfl⟩
    · obtain ⟨u, hu⟩ := subRemoveAux_append_space url (subRemove '@' tweet) false
      rw [subRemove, hu, subRemoveAux_of_hasHashMatch_eq_false url h]
      exact ⟨u ++ [' '], by simp⟩
  · exact ⟨subRemove '@' tweet ++ [' '], by simp⟩

/-- Witness for C10 at a concrete tweet and url. -/
theorem prepare_tweet_ends_with_url_witness :
    hasHashMatch "https://emmecola.github.io/genomics-daily".data = false ∧
      "https://emmecola.github.io/genomics-daily".data <:+
        prepare_tweet "news of the day @x #genomics".data
          "https://emmecola.github.io/genomics-daily".data :=
  ⟨by decide, prepare_tweet_ends_with_url _ _ (by decide)⟩

/-! ### `clean_text` (`genomics-daily.py`, lines 78-85)

`clean_text` performs, in order: `re.sub('<[^<]+?>', '', text)`,
`html.unescape`, and `' '.join(text.split())`. -/

/-- Model of Python whitespace as used by `str.split()` (restricted to the
ASCII whitespace characters space, tab, carriage return and newline). -/
def pyIsSpace (c : Char) : Bool := c.isWhitespace

/-- Negation of `pyIsSpace`, the character class of `str.split()` words. -/
def notSpace (c : Char) : Bool := !pyIsSpace c

/-- Accumulator-based scanner implementing Python `str.split()`:
`acc` holds the reversed characters of the word currently being read. -/
def pySplitAux : List Char → List Char → List (List Char)
  | [], acc => if acc = [] then [] else [acc.reverse]
  | c :: rest, acc =>
    if pyIsSpace c then
      if acc = [] then pySplitAux rest [] else acc.reverse :: pySplitAux rest []
    else pySplitAux rest (c :: acc)

/-- Embedding of Python `text.split()`: maximal runs of non-whitespace
characters, with all whitespace runs acting as separators. -/
def pySplit (l : List Char) : List (List Char) := pySplitAux l []

/-- Embedding of Python `sep.join(parts)`. -/
def joinWith (sep : List Char) : List (List Char) → List Char
  | [] => []
  | [x] => x
  | x :: y :: t => x ++ sep ++ joinWith sep (y :: t)

/-- Embedding of `' '.join(text.split())` (`genomics-daily.py`, line 84). -/
def collapseWhitespace (l : List Char) : List Char := joinWith [' '] (pySplit l)

/-- Scanner implementing `re.sub('<[^<]+?>', '', text)`: the state is `none`
outside a candidate tag, and `some buf` after an unclosed `'<'`, where `buf`
holds (reversed) the characters consumed so far by the non-greedy `[^<]+?`.
A `'>'` after at least one consumed character closes the match (the whole
`<...>` is deleted); a `'<'` aborts the candidate (its characters are kept,
and a new candidate starts, matching the regex engine's retry behaviour,
since no skipped character can start a match). -/
def stripTagsAux : List Char → Option (List Char) → List Char
  | [], none => []
  | [], some buf => '<' :: buf.reverse
  | c :: rest, none =>
    if c = '<' then stripTagsAux rest (some []) else c :: stripTagsAux rest none
  | c :: rest, some buf =>
    if c = '<' then ('<' :: buf.reverse) ++ stripTagsAux rest (some [])
    else if c = '>' ∧ buf ≠ [] then stripTagsAux rest none
    else stripTagsAux rest (some (c :: buf))

/-- Embedding of `re.sub('<[^<]+?>', '', text)` (`genomics-daily.py`, line 82). -/
def stripTags (l : List Char) : List Char := stripTagsAux l none

/-- Model of `html.unescape` (`genomics-daily.py`, line 83), covering the
named character references `&amp;` `&lt;` `&gt;` `&quot;`.  As in Python,
replacement text is not rescanned: scanning continues after the entity.  On
inputs whose ampersands occur only in these four entity forms (or followed
by no word characters) the model agrees with Python's `html.unescape`. -/
def unescape : List Char → List Char
  | [] => []
  | '&' :: 'a' :: 'm' :: 'p' :: ';' :: r => '&' :: unescape r
  | '&' :: 'l' :: 't' :: ';' :: r => '<' :: unescape r
  | '&' :: 'g' :: 't' :: ';' :: r => '>' :: unescape r
  | '&' :: 'q' :: 'u' :: 'o' :: 't' :: ';' :: r => '"' :: unescape r
  | c :: rest => c :: unescape rest

/-- Embedding of `clean_text` (`genomics-daily.py`, lines 78-85). -/
def clean_text (l : List Char) : List Char :=
  collapseWhitespace (unescape (stripTags l))

/-- C2 counterexample: `clean_text` is not idempotent.  On `"&amp;amp;"`
the first pass yields `"&amp;"` (the replacement text of `&amp;` is not
rescanned) and the second pass yields `"&"`; Python behaves identically. -/
theorem clean_text_not_idempotent :
    clean_text (clean_text "&amp;amp;".data) ≠ clean_text "&amp;amp;".data := by
  decide

/-- Unfolding: splitting a string led by a whitespace character. -/
theorem pySplit_cons_space {c : Char} (rest : List Char) (h : pyIsSpace c = true) :
    pySplit (c :: rest) = pySplit rest := by
  simp [pySplit, pySplitAux, h]

/-- Flushing a nonempty accumulator: the scanner completes the current word
with the next maximal non-whitespace run. -/
theorem pySplitAux_acc : ∀ (rest acc : List Char), acc ≠ [] →
    pySplitAux rest acc =
      (acc.reverse ++ rest.takeWhile notSpace) :: pySplit (rest.dropWhile notSpace) := by
  intro rest
  induction rest with
  | nil =>
    intro acc h
    simp [pySplitAux, h, pySplit]
  | cons d rest ih =>
    intro acc h
    by_cases hd : pyIsSpace d
    · rw [pySplitAux, if_pos hd, if_neg h, List.takeWhile_cons, List.dropWhile_cons]
      have hns : notSpace d = false := by simp [notSpace, hd]
      rw [if_neg (by simp [hns]), if_neg (by simp [hns]), List.append_nil,
        pySplit_cons_space rest hd]
      rfl
    · rw [pySplitAux, if_neg hd, ih (d :: acc) (by simp), List.takeWhile_cons,
        List.dropWhile_cons]
      have hns : notSpace d = true := by simp [notSpace, hd]
      rw [if_pos (by simp [hns]), if_pos (by simp [hns])]
      simp

/-- Unfolding: splitting a string led by a non-whitespace character. -/
theorem pySplit_cons_word {c : Char} (rest : List Char) (h : pyIsSpace c = false) :
    pySplit (c :: rest) =
      (c :: rest.takeWhile notSpace) :: pySplit (rest.dropWhile notSpace) := by
  rw [pySplit, pySplitAux, if_neg (by simp [h]), pySplitAux_acc rest [c] (by simp)]
  rfl

/-- Auxiliary: `dropWhile` never lengthens a list. -/
theorem length_dropWhile_le {α} (p : α → Bool) (l : List α) :
    (l.dropWhile p).length ≤ l.length := by
  induction l with
  | nil => exact Nat.le_refl _
  | cons a l ih =>
    rw [List.dropWhile_cons]
    split
    · exact Nat.le_trans ih (Nat.le_succ _)
    · exact Nat.le_refl _

/-- Every word produced by `str.split()` is nonempty and whitespace-free. -/
theorem pySplit_words : ∀ (n : Nat) (l : List Char), l.length ≤ n →
    ∀ w ∈ pySplit l, w ≠ [] ∧ w.all notSpace = true := by
  intro n
  induction n with
  | zero =>
    intro l hl w hw
    rw [List.length_eq_zero.mp (Nat.le_zero.mp hl)] at hw
    simp [pySplit, pySplitAux] at hw
  | succ n ih =>
    intro l hl w hw
    match l with
    | [] => simp [pySplit, pySplitAux] at hw
    | c :: rest =>
      rw [List.length_cons] at hl
      by_cases hc : pyIsSpace c
      · rw [pySplit_cons_space rest hc] at hw
        exact ih rest (by omega) w hw
      · rw [pySplit_cons_word rest (by simpa using hc)] at hw
        rcases List.mem_cons.mp hw with rfl | hw
        · refine ⟨by simp, ?_⟩
          rw [List.all_cons, Bool.and_eq_true]
          exact ⟨by simp [notSpace, hc], List.all_takeWhile ..⟩
        · exact ih (rest.dropWhile notSpace)
            (Nat.le_trans (length_dropWhile_le _ _) (by omega)) w hw

/-- A list all of whose elements satisfy `p` is its own `takeWhile p`. -/
theorem takeWhile_eq_self_of_all {α} (p : α → Bool) :
    ∀ l : List α, l.all p = true → l.takeWhile p = l := by
  intro l
  induction l with
  | nil => intro _; rfl
  | cons a l ih =>
    intro h
    rw [List.all_cons, Bool.and_eq_true] at h
    rw [List.takeWhile_cons, if_pos h.1, ih h.2]

/-- A list all of whose elements satisfy `p` has empty `dropWhile p`. -/
theorem dropWhile_eq_nil_of_all {α} (p : α → Bool) :
    ∀ l : List α, l.all p = true → l.dropWhile p = [] := by
  intro l
  induction l with
  | nil => intro _; rfl
  | cons a l ih =>
    intro h
    rw [List.all_cons, Bool.and_eq_true] at h
    rw [List.dropWhile_cons, if_pos h.1, ih h.2]

/-- Splitting a single whitespace-free nonempty word yields that word. -/
theorem pySplit_single (w : List Char) (hne : w ≠ []) (hall : w.all notSpace = true) :
    pySplit w = [w] := by
  match w with
  | c :: w' =>
    rw [List.all_cons, Bool.and_eq_true] at hall
    rw [pySplit_cons_word w' (by simpa [notSpace] using hall.1),
      takeWhile_eq_self_of_all _ _ hall.2, dropWhile_eq_nil_of_all _ _ hall.2]
    rfl

/-- A whitespace-free block followed by `' ' :: t` is exactly what
`takeWhile`/`dropWhile` peel off. -/
theorem takeWhile_word_append (t : List Char) : ∀ w : List Char,
    w.all notSpace = true →
    (w ++ ' ' :: t).takeWhile notSpace = w ∧
      (w ++ ' ' :: t).dropWhile notSpace = ' ' :: t := by
  intro w
  induction w with
  | nil =>
    intro _
    constructor
    · rw [List.nil_append, List.takeWhile_cons, if_neg (by decide)]
    · rw [List.nil_append, List.dropWhile_cons, if_neg (by decide)]
  | cons d w ih =>
    intro h
    rw [List.all_cons, Bool.and_eq_true] at h
    obtain ⟨htw, hdw⟩ := ih h.2
    constructor
    · rw [List.cons_append, List.takeWhile_cons, if_pos h.1, htw]
    · rw [List.cons_append, List.dropWhile_cons, if_pos h.1, hdw]

/-- Splitting `w ++ ' ' :: t` for a whitespace-free nonempty word `w`
peels off `w`. -/
theorem pySplit_word_append (w t : List Char) (hne : w ≠ [])
    (hall : w.all notSpace = true) : pySplit (w ++ ' ' :: t) = w :: pySplit t := by
  match w with
  | c :: w' =>
    rw [List.all_cons, Bool.and_eq_true] at hall
    obtain ⟨htw, hdw⟩ := takeWhile_word_append t w' hall.2
    rw [List.cons_append, pySplit_cons_word _ (by simpa [notSpace] using hall.1),
      htw, hdw, pySplit_cons_space t (by decide)]

/-- `str.split()` is a retraction of `' '.join` on lists of nonempty
whitespace-free words. -/
theorem pySplit_joinWith : ∀ ws : List (List Char),
    (∀ w ∈ ws, w ≠ [] ∧ w.all notSpace = true) →
    pySplit (joinWith [' '] ws) = ws := by
  intro ws
  induction ws with
  | nil => intro _; rfl
  | cons w ws ih =>
    intro h
    match ws with
    | [] =>
      have hw := h w (by simp)
      simpa [joinWith] using pySplit_single w hw.1 hw.2
    | v :: ws' =>
      have hw := h w (by simp)
      have hrec : joinWith [' '] (w :: v :: ws') =
          w ++ ' ' :: joinWith [' '] (v :: ws') := by
        rw [joinWith, List.append_assoc]
        rfl
      rw [hrec, pySplit_word_append w _ hw.1 hw.2,
        ih (fun u hu => h u (List.mem_cons_of_mem w hu))]

/-- `' '.join(s.split())` is idempotent. -/
theorem collapseWhitespace_idem (l : List Char) :
    collapseWhitespace (collapseWhitespace l) = collapseWhitespace l := by
  rw [collapseWhitespace, collapseWhitespace,
    pySplit_joinWith (pySplit l) (fun w hw => pySplit_words l.length l (Nat.le_refl _) w hw)]

/-- A string without `'<'` is unchanged by tag stripping. -/
theorem stripTags_of_not_mem (l : List Char) (h : '<' ∉ l) : stripTags l = l := by
  rw [stripTags]
  induction l with
  | nil => rfl
  | cons c rest ih =>
    have hc : ¬c = '<' := fun hh => h (hh ▸ List.mem_cons_self c rest)
    rw [stripTagsAux, if_neg hc, ih (fun hm => h (List.mem_cons_of_mem c hm))]

/-- Unfolding: `unescape` passes over a character other than `'&'`. -/
theorem unescape_cons_ne (c : Char) (rest : List Char) (hc : c ≠ '&') :
    unescape (c :: rest) = c :: unescape rest := by
  conv_lhs => unfold unescape
  split <;> simp_all

/-- A string without `'&'` is unchanged by entity unescaping. -/
theorem unescape_of_not_mem (l : List Char) (h : '&' ∉ l) : unescape l = l := by
  induction l with
  | nil => rfl
  | cons c rest ih =>
    have hc : ¬c = '&' := fun hh => h (hh ▸ List.mem_cons_self c rest)
    rw [unescape_cons_ne c rest hc, ih (fun hm => h (List.mem_cons_of_mem c hm))]

/-- C2 amended: `clean_text` is idempotent on every string whose cleaned
form contains neither `'<'` nor `'&'` (the counterexample above shows the
unrestricted claim fails: un-rescanned entities, and entities decoding to
tag markup, change under a second pass). -/
theorem clean_text_idem_of_clean (s : List Char)
    (h1 : '<' ∉ clean_text s) (h2 : '&' ∉ clean_text s) :
    clean_text (clean_text s) = clean_text s := by
  conv_lhs => rw [clean_text]
  rw [stripTags_of_not_mem _ h1, unescape_of_not_mem _ h2,
    show clean_text s = collapseWhitespace (unescape (stripTags s)) from rfl]
  exact collapseWhitespace_idem _

/-- Witness for the amended C2 at a concrete string. -/
theorem clean_text_idem_of_clean_witness :
    '<' ∉ clean_text "  the  quick   fox ".data ∧
      '&' ∉ clean_text "  the  quick   fox ".data ∧
      clean_text (clean_text "  the  quick   fox ".data) =
        clean_text "  the  quick   fox ".data :=
  ⟨by decide, by decide, clean_text_idem_of_clean _ (by decide) (by decide)⟩

/-! ### `create_facets` (`genomics-daily-bot.py`, lines 78-113)

Byte offsets are computed over the UTF-8 encoding of the text, via
`len(text[:pos].encode('utf-8'))` in the source; here `utf8Len` sums the
UTF-8 width of each code point of a prefix. -/

/-- Number of bytes of the UTF-8 encoding of one code point. -/
def utf8Width (c : Char) : Nat :=
  if c.toNat < 0x80 then 1
  else if c.toNat < 0x800 then 2
  else if c.toNat < 0x10000 then 3
  else 4

/-- `len(s.encode('utf-8'))` for a Python string modelled as `List Char`. -/
def utf8Len (l : List Char) : Nat := (l.map utf8Width).sum

/-- `startsWithL sub l` is `true` iff `sub` is an initial block of `l`. -/
def startsWithL : List Char → List Char → Bool
  | [], _ => true
  | _ :: _, [] => false
  | p :: ps, c :: cs => p = c && startsWithL ps cs

/-- Index of the first position of `l` at which `sub` starts, if any. -/
def firstMatch : List Char → List Char → Option Nat
  | [], sub => if startsWithL sub [] then some 0 else none
  | c :: rest, sub =>
    if startsWithL sub (c :: rest) then some 0
    else (firstMatch rest sub).map (· + 1)

/-- Embedding of Python `text.find(sub, start)`: `-1` when there is no
occurrence, the least index of an occurrence `≥ start` otherwise (with
Python's clamping of out-of-range start values). -/
def pyFind (l sub : List Char) (start : Int) : Int :=
  let s : Nat := if start < 0 then ((l.length : Int) + start).toNat else start.toNat
  if s > l.length then -1
  else
    match firstMatch (l.drop s) sub with
    | some i => (s : Int) + (i : Int)
    | none => -1

/-- Embedding of the Python slice `l[:i]`, including negative indices. -/
def pyTake (l : List Char) (i : Int) : List Char :=
  if i < 0 then l.take (((l.length : Int) + i).toNat) else l.take i.toNat

/-- The two facet feature types emitted by `create_facets`
(`app.bsky.richtext.facet#link` and `app.bsky.richtext.facet#tag`). -/
inductive FacetKind where
  | link
  | tag
deriving DecidableEq

/-- A rich-text facet: byte span plus feature (`uri` for links, the tag
name for hashtags, stored in `payload`). -/
structure Facet where
  byteStart : Nat
  byteEnd : Nat
  kind : FacetKind
  payload : List Char
deriving DecidableEq

/-- Python `word.startswith('#')`: nonempty and led by `'#'`. -/
def startsHash (w : List Char) : Bool := w.headD ' ' = '#'

/-- Embedding of the hashtag loop of `create_facets` (lines 95-111):
iterate over the whitespace-split words; for each word starting with `'#'`
emit a tag facet located by `text.find(word, current_position)`; for every
word advance `current_position` to the end of the found occurrence. -/
def tagFacetLoop (text : List Char) : List (List Char) → Int → List Facet
  | [], _ => []
  | w :: ws, cp =>
    let f := pyFind text w cp
    let rest := tagFacetLoop text ws (f + (w.length : Int))
    if startsHash w then
      { byteStart := utf8Len (pyTake text f),
        byteEnd := utf8Len (pyTake text f) + utf8Len w,
        kind := FacetKind.tag, payload := w.tail } :: rest
    else rest

/-- Embedding of `create_facets` (`genomics-daily-bot.py`, lines 78-113).
The Python membership test `url in text` is modelled as `0 ≤ find`, which
is equivalent; note that for `url = ''` it succeeds on every text. -/
def create_facets (text : List Char) (url : List Char := []) : List Facet :=
  let f0 := pyFind text url 0
  let linkPart : List Facet :=
    if 0 ≤ f0 then
      [{ byteStart := utf8Len (pyTake text f0),
         byteEnd := utf8Len (pyTake text f0) + utf8Len url,
         kind := FacetKind.link, payload := url }]
    else []
  linkPart ++ tagFacetLoop text (pySplit text) 0

/-- A byte offset is a UTF-8 boundary of `text` iff it is the UTF-8 byte
length of some prefix of `text`. -/
def isUtf8Boundary (text : List Char) (b : Nat) : Prop :=
  ∃ n, utf8Len (text.take n) = b

/-- Sequential embedding: the words of `ws` occur in `text`, in order, at
non-overlapping positions starting at or after index `k`. -/
def seqEmbed (text : List Char) : Nat → List (List Char) → Prop
  | _, [] => True
  | k, w :: ws => ∃ j t, k ≤ j ∧ text.drop j = w ++ t ∧ seqEmbed text (j + w.length) ws

/-- Dropping as many elements as `takeWhile` keeps yields `dropWhile`. -/
theorem drop_length_takeWhile {α} (p : α → Bool) (l : List α) :
    l.drop (l.takeWhile p).length = l.dropWhile p := by
  induction l with
  | nil => rfl
  | cons a l ih =>
    rw [List.takeWhile_cons, List.dropWhile_cons]
    split
    · rw [List.length_cons, List.drop_succ_cons, ih]
    · rfl

/-- `seqEmbed` is downward monotone in the start index. -/
theorem seqEmbed_mono (text : List Char) {ws : List (List Char)} {k k' : Nat}
    (h : k' ≤ k) (hse : seqEmbed text k ws) : seqEmbed text k' ws := by
  match ws with
  | [] => trivial
  | w :: ws =>
    obtain ⟨j, t, hkj, hdrop, hrest⟩ := hse
    exact ⟨j, t, Nat.le_trans h hkj, hdrop, hrest⟩

/-- The words of `pySplit l` occur sequentially in any text whose suffix at
index `k` is `l`. -/
theorem seqEmbed_pySplit (text : List Char) : ∀ (n : Nat) (l : List Char) (k : Nat),
    l.length ≤ n → text.drop k = l → seqEmbed text k (pySplit l) := by
  intro n
  induction n with
  | zero =>
    intro l k hl _
    rw [List.length_eq_zero.mp (Nat.le_zero.mp hl)]
    trivial
  | succ n ih =>
    intro l k hl hdrop
    match l with
    | [] => trivial
    | c :: rest =>
      rw [List.length_cons] at hl
      have hrest : text.drop (k + 1) = rest := by
        rw [← List.drop_drop, hdrop]
        rfl
      by_cases hc : pyIsSpace c
      · rw [pySplit_cons_space rest hc]
        exact seqEmbed_mono text (Nat.le_succ k) (ih rest (k + 1) (by omega) hrest)
      · rw [pySplit_cons_word rest (by simpa using hc)]
        refine ⟨k, rest.dropWhile notSpace, Nat.le_refl k, ?_, ?_⟩
        · rw [hdrop, List.cons_append, List.takeWhile_append_dropWhile]
        · have hdrop2 : text.drop (k + (c :: rest.takeWhile notSpace).length) =
              rest.dropWhile notSpace := by
            have h1 : k + (c :: rest.takeWhile notSpace).length =
                (k + 1) + (rest.takeWhile notSpace).length := by
              rw [List.length_cons]; omega
            rw [h1, ← List.drop_drop, hrest, drop_length_takeWhile]
          exact ih (rest.dropWhile notSpace) _
            (Nat.le_trans (length_dropWhile_le _ _) (by omega)) hdrop2

/-- A list starts with itself, whatever follows. -/
theorem startsWithL_append (w t : List Char) : startsWithL w (w ++ t) = true := by
  induction w with
  | nil => rfl
  | cons c w ih => simp [startsWithL, ih]

/-- An initial block is no longer than the whole list. -/
theorem startsWithL_length_le : ∀ (sub l : List Char),
    startsWithL sub l = true → sub.length ≤ l.length := by
  intro sub
  induction sub with
  | nil => intro l _; exact Nat.zero_le _
  | cons p ps ih =>
    intro l h
    match l with
    | [] => exact absurd h (by simp [startsWithL])
    | c :: cs =>
      rw [startsWithL, Bool.and_eq_true] at h
      simpa [List.length_cons] using Nat.succ_le_succ (ih cs h.2)

/-- Taking the length of an initial block recovers it. -/
theorem startsWithL_take : ∀ (sub l : List Char),
    startsWithL sub l = true → l.take sub.length = sub := by
  intro sub
  induction sub with
  | nil => intro l _; rfl
  | cons p ps ih =>
    intro l h
    match l with
    | [] => exact absurd h (by simp [startsWithL])
    | c :: cs =>
      rw [startsWithL, Bool.and_eq_true] at h
      have hpc : p = c := by simpa using h.1
      rw [List.length_cons, List.take_succ_cons, ih cs h.2, hpc]

/-- Soundness of `firstMatch`: a returned index is an occurrence within
the list. -/
theorem firstMatch_some : ∀ (l sub : List Char) (i : Nat),
    firstMatch l sub = some i → startsWithL sub (l.drop i) = true ∧ i ≤ l.length := by
  intro l
  induction l with
  | nil =>
    intro sub i h
    rw [firstMatch] at h
    split at h
    · cases h
      exact ⟨by assumption, Nat.le_refl _⟩
    · cases h
  | cons c rest ih =>
    intro sub i h
    rw [firstMatch] at h
    split at h
    · cases h
      rw [List.drop_zero]
      exact ⟨by assumption, Nat.zero_le _⟩
    · obtain ⟨i', hi', rfl⟩ := Option.map_eq_some'.mp h
      obtain ⟨h1, h2⟩ := ih sub i' hi'
      rw [List.drop_succ_cons]
      exact ⟨h1, by rw [List.length_cons]; omega⟩

/-- Completeness of `firstMatch`: if `sub` occurs at index `m`, some index
`≤ m` is returned. -/
theorem firstMatch_of_occurrence : ∀ (l : List Char) (m : Nat) (sub : List Char),
    startsWithL sub (l.drop m) = true → ∃ i, i ≤ m ∧ firstMatch l sub = some i := by
  intro l
  induction l with
  | nil =>
    intro m sub h
    rw [List.drop_nil] at h
    exact ⟨0, Nat.zero_le m, by rw [firstMatch, if_pos h]⟩
  | cons c rest ih =>
    intro m sub h
    by_cases h0 : startsWithL sub (c :: rest) = true
    · exact ⟨0, Nat.zero_le m, by rw [firstMatch, if_pos h0]⟩
    · match m with
      | 0 =>
        rw [List.drop_zero] at h
        exact absurd h h0
      | m + 1 =>
        rw [List.drop_succ_cons] at h
        obtain ⟨i, him, hfm⟩ := ih m sub h
        exact ⟨i + 1, by omega, by rw [firstMatch, if_neg h0, hfm]; rfl⟩

/-- Every code point takes at least one byte. -/
theorem utf8Width_pos (c : Char) : 1 ≤ utf8Width c := by
  rw [utf8Width]
  split
  · omega
  · split
    · omega
    · split <;> omega

/-- UTF-8 byte length is additive over concatenation. -/
theorem utf8Len_append (a b : List Char) : utf8Len (a ++ b) = utf8Len a + utf8Len b := by
  simp [utf8Len]

/-- A nonempty string has positive UTF-8 byte length. -/
theorem utf8Len_pos (w : List Char) (h : w ≠ []) : 1 ≤ utf8Len w := by
  match w with
  | c :: w' =>
    have h1 := utf8Width_pos c
    have h2 : utf8Len (c :: w') = utf8Width c + utf8Len w' := by simp [utf8Len]
    omega

/-- The byte length of a prefix is at most that of the whole string. -/
theorem utf8Len_take_le (l : List Char) (n : Nat) : utf8Len (l.take n) ≤ utf8Len l := by
  conv_rhs => rw [← List.take_append_drop n l]
  rw [utf8Len_append]
  omega

/-- Prefix byte length is monotone in the prefix length. -/
theorem utf8Len_take_mono (l : List Char) {m n : Nat} (h : m ≤ n) :
    utf8Len (l.take m) ≤ utf8Len (l.take n) := by
  have heq : l.take m = (l.take n).take m := by
    rw [List.take_take, Nat.min_eq_left h]
  rw [heq]
  exact utf8Len_take_le _ _

/-- Byte length of the prefix up to the end of an occurrence of `w` at
index `n`. -/
theorem utf8Len_take_of_starts (text w : List Char) (n : Nat)
    (h : startsWithL w (text.drop n) = true) :
    utf8Len (text.take (n + w.length)) = utf8Len (text.take n) + utf8Len w := by
  rw [List.take_add, utf8Len_append, startsWithL_take w _ h]

/-- The Python slice `l[:n]` for a nonnegative index. -/
theorem pyTake_coe (l : List Char) (n : Nat) : pyTake l (n : Int) = l.take n := by
  rw [pyTake, if_neg (by omega)]
  norm_num

/-- `pyFind` on an in-range nonnegative start, when `firstMatch` succeeds
on the corresponding suffix. -/
theorem pyFind_eq_of_firstMatch (text sub : List Char) (k i : Nat) (hk : k ≤ text.length)
    (h : firstMatch (text.drop k) sub = some i) :
    pyFind text sub (k : Int) = ((k + i : Nat) : Int) := by
  rw [pyFind]
  simp only [if_neg (show ¬(k : Int) < 0 by omega), Int.toNat_natCast]
  rw [if_neg (by omega), h]
  push_cast
  ring

/-- If `w` occurs at some index `m ≥ k`, then `text.find(w, k)` returns an
occurrence index in `[k, m]`, and the found occurrence fits in `text`. -/
theorem pyFind_found (text w : List Char) (k m : Nat) (hk : k ≤ text.length)
    (hkm : k ≤ m) (hm : m ≤ text.length) (hsw : startsWithL w (text.drop m) = true) :
    ∃ i : Nat, k + i ≤ m ∧ pyFind text w (k : Int) = ((k + i : Nat) : Int) ∧
      startsWithL w (text.drop (k + i)) = true ∧ k + i + w.length ≤ text.length := by
  have hrel : startsWithL w ((text.drop k).drop (m - k)) = true := by
    rw [List.drop_drop]
    have heq : k + (m - k) = m := by omega
    rw [heq]
    exact hsw
  obtain ⟨i, him, hfm⟩ := firstMatch_of_occurrence (text.drop k) (m - k) w hrel
  have hocc := firstMatch_some (text.drop k) w i hfm
  have hsw2 : startsWithL w (text.drop (k + i)) = true := by
    have h1 := hocc.1
    rwa [List.drop_drop] at h1
  have hlen : w.length ≤ text.length - (k + i) := by
    have h2 := startsWithL_length_le w _ hsw2
    rw [List.length_drop] at h2
    omega
  have hikm : k + i ≤ m := by omega
  have hilen : k + i ≤ text.length := by
    have := hocc.2
    rw [List.length_drop] at this
    omega
  exact ⟨i, hikm, pyFind_eq_of_firstMatch text w k i hk hfm, hsw2, by omega⟩

/-- A word accepted by `startsHash` is `'#'` followed by its tail. -/
theorem startsHash_shape (w : List Char) (h : startsHash w = true) : w = '#' :: w.tail := by
  match w with
  | [] => simp [startsHash] at h
  | c :: w' =>
    have hc : c = '#' := by simpa [startsHash] using h
    rw [hc]
    rfl

/-- Main invariant of the hashtag loop: starting the scan at an in-range
position `k` with the remaining words sequentially embedded from `k`, every
emitted facet is a tag facet whose byte span is the UTF-8 span of an
occurrence of its `'#'`-token inside `text`, located at or after `k`; and
successive facets occupy non-overlapping, left-to-right byte spans. -/
theorem tagFacetLoop_master (text : List Char) : ∀ (ws : List (List Char)) (k : Nat),
    k ≤ text.length → seqEmbed text k ws →
    (∀ f ∈ tagFacetLoop text ws (k : Int),
        f.kind = FacetKind.tag ∧
        utf8Len (text.take k) ≤ f.byteStart ∧
        ∃ n, k ≤ n ∧ n + ('#' :: f.payload).length ≤ text.length ∧
          startsWithL ('#' :: f.payload) (text.drop n) = true ∧
          f.byteStart = utf8Len (text.take n) ∧
          f.byteEnd = utf8Len (text.take (n + ('#' :: f.payload).length))) ∧
    List.Chain' (fun f g => f.byteEnd ≤ g.byteStart) (tagFacetLoop text ws (k : Int)) := by
  intro ws
  induction ws with
  | nil =>
    intro k hk _
    refine ⟨?_, ?_⟩
    · intro f hf
      simp [tagFacetLoop] at hf
    · simp [tagFacetLoop]
  | cons w ws ih =>
    intro k hk hse
    obtain ⟨j, t, hkj, hdrop, hrest⟩ := hse
    have hocc : ∃ m, k ≤ m ∧ m ≤ text.length ∧ m ≤ j ∧
        startsWithL w (text.drop m) = true := by
      by_cases hj : j ≤ text.length
      · exact ⟨j, hkj, hj, Nat.le_refl j, by rw [hdrop]; exact startsWithL_append w t⟩
      · have hnil : text.drop j = [] := List.drop_eq_nil_of_le (by omega)
        have hw : w = [] := by
          rw [hnil] at hdrop
          exact (List.append_eq_nil.mp hdrop.symm).1
        exact ⟨text.length, hk, Nat.le_refl _, by omega, by rw [hw]; rfl⟩
    obtain ⟨m, hkm, hmlen, hmj, hswm⟩ := hocc
    obtain ⟨i, him, hfind, hswi, hfit⟩ := pyFind_found text w k m hk hkm hmlen hswm
    have hse' : seqEmbed text (k + i + w.length) ws :=
      seqEmbed_mono text (by omega) hrest
    have ihh := ih (k + i + w.length) hfit hse'
    have hloop : tagFacetLoop text (w :: ws) (k : Int) =
        (if startsHash w = true then
          [⟨utf8Len (text.take (k + i)), utf8Len (text.take (k + i)) + utf8Len w,
            FacetKind.tag, w.tail⟩]
         else []) ++ tagFacetLoop text ws ((k + i + w.length : Nat) : Int) := by
      simp only [tagFacetLoop]
      rw [hfind, pyTake_coe]
      have hcast : ((k + i : Nat) : Int) + (w.length : Int) =
          ((k + i + w.length : Nat) : Int) := by push_cast; ring
      rw [hcast]
      by_cases hsh : startsHash w = true <;> simp [hsh]
    rw [hloop]
    by_cases hsh : startsHash w = true
    · rw [if_pos hsh, List.singleton_append]
      have hw : w = '#' :: w.tail := startsHash_shape w hsh
      constructor
      · intro f hf
        rcases List.mem_cons.mp hf with rfl | hf
        · refine ⟨rfl, utf8Len_take_mono text (by omega), k + i, by omega, ?_, ?_, rfl, ?_⟩
          · rw [← hw]; exact hfit
          · rw [← hw]; exact hswi
          · rw [← hw, utf8Len_take_of_starts text w _ hswi]
        · obtain ⟨h1, h2, n, hn1, hn2, hn3, hn4, hn5⟩ := ihh.1 f hf
          exact ⟨h1, Nat.le_trans (utf8Len_take_mono text (by omega)) h2,
            n, by omega, hn2, hn3, hn4, hn5⟩
      · rw [List.chain'_cons']
        refine ⟨?_, ihh.2⟩
        intro b hb
        have hbmem : b ∈ tagFacetLoop text ws ((k + i + w.length : Nat) : Int) :=
          List.mem_of_mem_head? hb
        obtain ⟨_, h2, _⟩ := ihh.1 b hbmem
        calc utf8Len (text.take (k + i)) + utf8Len w
            = utf8Len (text.take (k + i + w.length)) :=
              (utf8Len_take_of_starts text w _ hswi).symm
          _ ≤ b.byteStart := h2
    · rw [if_neg hsh, List.nil_append]
      refine ⟨?_, ihh.2⟩
      intro f hf
      obtain ⟨h1, h2, n, hn1, hn2, hn3, hn4, hn5⟩ := ihh.1 f hf
      exact ⟨h1, Nat.le_trans (utf8Len_take_mono text (by omega)) h2,
        n, by omega, hn2, hn3, hn4, hn5⟩

/-- `pyFind` on an in-range nonnegative start returns `-1` when
`firstMatch` fails on the corresponding suffix. -/
theorem pyFind_eq_of_firstMatch_none (text sub : List Char) (k : Nat)
    (hk : k ≤ text.length) (h : firstMatch (text.drop k) sub = none) :
    pyFind text sub (k : Int) = -1 := by
  rw [pyFind]
  simp only [if_neg (show ¬(k : Int) < 0 by omega), Int.toNat_natCast]
  rw [if_neg (by omega), h]

/-- Unpacking a successful `text.find(url)` from position `0`: the found
index is an occurrence of `url` fitting inside `text`. -/
theorem pyFind_zero_cases (text url : List Char) (h : 0 ≤ pyFind text url 0) :
    ∃ i : Nat, pyFind text url 0 = (i : Int) ∧
      startsWithL url (text.drop i) = true ∧ i + url.length ≤ text.length := by
  have h00 : (0 : Int) = ((0 : Nat) : Int) := rfl
  rcases hfm : firstMatch (text.drop 0) url with _ | i
  · rw [h00, pyFind_eq_of_firstMatch_none text url 0 (Nat.zero_le _) hfm] at h
    omega
  · have hpf : pyFind text url 0 = ((0 + i : Nat) : Int) := by
      rw [h00]
      exact pyFind_eq_of_firstMatch text url 0 i (Nat.zero_le _) hfm
    obtain ⟨hsw, hle⟩ := firstMatch_some (text.drop 0) url i hfm
    rw [List.drop_drop] at hsw
    have hfit : i + url.length ≤ text.length := by
      have h2 := startsWithL_length_le url _ hsw
      rw [List.length_drop] at h2
      rw [List.length_drop] at hle
      omega
    rw [List.drop_zero] at hle
    exact ⟨i, by rw [hpf]; norm_num, by simpa using hsw, hfit⟩

/-- Structure of `create_facets`: the (possibly empty) link part followed
by the hashtag-loop facets. -/
theorem create_facets_eq (text url : List Char) :
    create_facets text url =
      (if 0 ≤ pyFind text url 0 then
        [⟨utf8Len (pyTake text (pyFind text url 0)),
          utf8Len (pyTake text (pyFind text url 0)) + utf8Len url,
          FacetKind.link, url⟩]
       else []) ++ tagFacetLoop text (pySplit text) 0 := rfl

/-- C3 counterexample: with the empty url (Python `'' in text` is always
true, and `text.find('')` is 0) the link facet has `byteStart = byteEnd = 0`,
violating `byteStart < byteEnd`. -/
theorem create_facets_empty_url_violation :
    ∃ f ∈ create_facets "a".data [], ¬ f.byteStart < f.byteEnd := by
  decide

/-- C3 amended: for every text and every nonempty url, every facet emitted
by `create_facets` satisfies `byteStart < byteEnd ≤ len(text.encode('utf-8'))`
and both offsets are UTF-8 boundaries of the text. -/
theorem create_facets_offsets_valid (text url : List Char) (hurl : url ≠ []) :
    ∀ f ∈ create_facets text url,
      f.byteStart < f.byteEnd ∧ f.byteEnd ≤ utf8Len text ∧
      isUtf8Boundary text f.byteStart ∧ isUtf8Boundary text f.byteEnd := by
  intro f hf
  rw [create_facets_eq] at hf
  rcases List.mem_append.mp hf with hf | hf
  · split at hf
    case isTrue h0 =>
      have hfeq := List.mem_singleton.mp hf
      obtain ⟨i, hpf, hsw, hfit⟩ := pyFind_zero_cases text url h0
      have hbs : f.byteStart = utf8Len (text.take i) := by
        rw [hfeq, hpf, pyTake_coe]
      have hbe : f.byteEnd = utf8Len (text.take i) + utf8Len url := by
        rw [hfeq, hpf, pyTake_coe]
      have hend : utf8Len (text.take i) + utf8Len url =
          utf8Len (text.take (i + url.length)) :=
        (utf8Len_take_of_starts text url i hsw).symm
      refine ⟨?_, ?_, ⟨i, hbs.symm⟩, ⟨i + url.length, ?_⟩⟩
      · rw [hbs, hbe]
        have := utf8Len_pos url hurl
        omega
      · rw [hbe, hend]
        exact utf8Len_take_le _ _
      · rw [hbe, hend]
    case isFalse => simp at hf
  · have hse : seqEmbed text 0 (pySplit text) :=
      seqEmbed_pySplit text text.length text 0 (Nat.le_refl _) (List.drop_zero text)
    have hmaster := tagFacetLoop_master text (pySplit text) 0 (Nat.zero_le _) hse
    rw [show ((0 : Nat) : Int) = (0 : Int) from rfl] at hmaster
    obtain ⟨_, _, n, _, hfit, hsw, hbs, hbe⟩ := hmaster.1 f hf
    have hend : utf8Len (text.take (n + ('#' :: f.payload).length)) =
        utf8Len (text.take n) + utf8Len ('#' :: f.payload) :=
      utf8Len_take_of_starts text _ n hsw
    refine ⟨?_, ?_, ⟨n, hbs.symm⟩, ⟨n + ('#' :: f.payload).length, hbe.symm⟩⟩
    · rw [hbs, hbe, hend]
      have := utf8Len_pos ('#' :: f.payload) (by simp)
      omega
    · rw [hbe]
      exact utf8Len_take_le _ _

/-- Witness for the amended C3 at a concrete text and url. -/
theorem create_facets_offsets_valid_witness :
    ("u".data ≠ ([] : List Char)) ∧
      ∀ f ∈ create_facets "go u #dna now #dna".data "u".data,
        f.byteStart < f.byteEnd ∧ f.byteEnd ≤ utf8Len "go u #dna now #dna".data ∧
        isUtf8Boundary "go u #dna now #dna".data f.byteStart ∧
        isUtf8Boundary "go u #dna now #dna".data f.byteEnd :=
  ⟨by decide, create_facets_offsets_valid _ _ (by decide)⟩

/-- Every facet emitted by the hashtag loop is a tag facet. -/
theorem tagFacetLoop_kind (text : List Char) : ∀ (ws : List (List Char)) (cp : Int),
    ∀ f ∈ tagFacetLoop text ws cp, f.kind = FacetKind.tag := by
  intro ws
  induction ws with
  | nil => intro cp f hf; simp [tagFacetLoop] at hf
  | cons w ws ih =>
    intro cp f hf
    simp only [tagFacetLoop] at hf
    by_cases hsh : startsHash w = true
    · rw [if_pos hsh] at hf
      rcases List.mem_cons.mp hf with rfl | hf
      · rfl
      · exact ih _ f hf
    · rw [if_neg hsh] at hf
      exact ih _ f hf

/-- The payloads of the hashtag-loop facets are exactly the `'#'`-words of
the token list, in order, each with its leading `'#'` removed. -/
theorem tagFacetLoop_payloads (text : List Char) : ∀ (ws : List (List Char)) (cp : Int),
    (tagFacetLoop text ws cp).map Facet.payload =
      (ws.filter startsHash).map List.tail := by
  intro ws
  induction ws with
  | nil => intro cp; rfl
  | cons w ws ih =>
    intro cp
    simp only [tagFacetLoop, List.filter_cons]
    by_cases hsh : startsHash w = true
    · rw [if_pos hsh, if_pos hsh, List.map_cons, List.map_cons, ih]
    · rw [if_neg hsh, if_neg (by simpa using hsh), ih]

/-- C7: the facet list places the link facet (when the url occurs) first;
tag facets follow in left-to-right token order, each with payload equal to
its token with the leading `'#'` removed; and the tag facets' byte spans
advance strictly left to right (each span starts no earlier than the end of
the previously matched token's span, since the search resumes there). -/
theorem create_facets_order (text url : List Char) :
    (∀ f ∈ create_facets text url, f.kind = FacetKind.link →
        (create_facets text url).head? = some f) ∧
    ((create_facets text url).filter (fun f => f.kind == FacetKind.tag)).map
        Facet.payload = ((pySplit text).filter startsHash).map List.tail ∧
    List.Chain' (fun f g => f.byteEnd ≤ g.byteStart)
      ((create_facets text url).filter (fun f => f.kind == FacetKind.tag)) := by
  have hse : seqEmbed text 0 (pySplit text) :=
    seqEmbed_pySplit text text.length text 0 (Nat.le_refl _) (List.drop_zero text)
  have hmaster := tagFacetLoop_master text (pySplit text) 0 (Nat.zero_le _) hse
  rw [show ((0 : Nat) : Int) = (0 : Int) from rfl] at hmaster
  have hloopfilter : (tagFacetLoop text (pySplit text) 0).filter
      (fun f => f.kind == FacetKind.tag) = tagFacetLoop text (pySplit text) 0 :=
    List.filter_eq_self.mpr (fun f hf => by
      rw [tagFacetLoop_kind text (pySplit text) 0 f hf]; rfl)
  refine ⟨?_, ?_, ?_⟩
  · intro f hf hkind
    rw [create_facets_eq] at hf ⊢
    rcases List.mem_append.mp hf with hf | hf
    · split at hf
      case isTrue h0 =>
        rw [List.mem_singleton.mp hf]
        split
        · rfl
        · exact absurd h0 (by assumption)
      case isFalse => simp at hf
    · rw [tagFacetLoop_kind text (pySplit text) 0 f hf] at hkind
      cases hkind
  · have hlink : (if 0 ≤ pyFind text url 0 then
        [(⟨utf8Len (pyTake text (pyFind text url 0)),
          utf8Len (pyTake text (pyFind text url 0)) + utf8Len url,
          FacetKind.link, url⟩ : Facet)]
       else []).filter (fun f => f.kind == FacetKind.tag) = [] := by
      split <;> rfl
    rw [create_facets_eq, List.filter_append, hloopfilter, hlink, List.nil_append,
      tagFacetLoop_payloads]
  · rw [create_facets_eq, List.filter_append, hloopfilter]
    have hlink : (if 0 ≤ pyFind text url 0 then
        [(⟨utf8Len (pyTake text (pyFind text url 0)),
          utf8Len (pyTake text (pyFind text url 0)) + utf8Len url,
          FacetKind.link, url⟩ : Facet)]
       else []).filter (fun f => f.kind == FacetKind.tag) = [] := by
      split <;> rfl
    rw [hlink, List.nil_append]
    exact hmaster.2

/-- Witness for C7 at a concrete text and url (the tag-payload conjunct,
instantiated). -/
theorem create_facets_order_witness :
    ((create_facets "go #dna u".data "u".data).filter
        (fun f => f.kind == FacetKind.tag)).map Facet.payload =
      ((pySplit "go #dna u".data).filter startsHash).map List.tail :=
  (create_facets_order "go #dna u".data "u".data).2.1

/-! ### Query Builder (`genomics-daily.py`, lines 133-162)

`retrieve_genomics_papers_with_abstracts` builds the PubMed search query
from the keyword list, the journal list (each journal tagged `[Journal]` at
load time, line 54), the fixed publication-type clause, and a date range
whose two endpoints are both `datetime.now() - timedelta(days=days_back)`
formatted as `%Y/%m/%d`.  The two `datetime.now()` calls are modelled by
two explicit clock readings (day counts), `now1` for `end_date` and `now2`
for `start_date`, in source order. -/

/-- The literal `[Title/Abstract]` field tag (line 148). -/
def titleAbstractTag : List Char := "[Title/Abstract]".data

/-- The literal `[Journal]` field tag (line 54). -/
def journalTag : List Char := "[Journal]".data

/-- The fixed publication-type clause (line 154). -/
def publicationTypeFilter : List Char := "Journal Article[Publication Type]".data

/-- `load_journals_from_file` appends `[Journal]` to each line (line 54). -/
def tagJournal (j : List Char) : List Char := j ++ journalTag

/-- Embedding of the query construction (lines 148-162), with the two
formatted date strings as parameters. -/
def mkQuery (keywords journals : List (List Char)) (startStr endStr : List Char) :
    List Char :=
  let keyword_query :=
    joinWith " OR ".data (keywords.map (fun kw => kw ++ titleAbstractTag))
  let journal_filter := joinWith " OR ".data (journals.map (fun j => j ++ journalTag))
  "((".data ++ keyword_query ++ ")) AND (".data ++ journal_filter ++
    ") AND ".data ++ publicationTypeFilter ++ " AND ".data ++
    startStr ++ ":".data ++ endStr ++ "[Date - Publication]".data

/-- Number of indices of `l` at which `pat` occurs (for nonempty `pat`,
the number of substring occurrences, counting overlaps — the patterns
counted here cannot overlap themselves). -/
def countOccs (pat : List Char) : List Char → Nat
  | [] => 0
  | c :: rest => (if startsWithL pat (c :: rest) = true then 1 else 0) + countOccs pat rest

/-- Day-count to proleptic-Gregorian conversion (days since 1970-01-01 to
`(year, month, day)`), modelling the calendar arithmetic behind
`datetime.strftime('%Y/%m/%d')`. -/
def civilFromDays (z0 : Int) : Int × Nat × Nat :=
  let z := z0 + 719468
  let era : Int := Int.fdiv z 146097
  let doe : Nat := (z - era * 146097).toNat
  let yoe : Nat := (doe - doe / 1460 + doe / 36524 - doe / 146096) / 365
  let y : Int := (yoe : Int) + era * 400
  let doy : Nat := doe - (365 * yoe + yoe / 4 - yoe / 100)
  let mp : Nat := (5 * doy + 2) / 153
  let d : Nat := doy - (153 * mp + 2) / 5 + 1
  let m : Nat := if mp < 10 then mp + 3 else mp - 9
  (if m ≤ 2 then y + 1 else y, m, d)

/-- Left-pad a decimal rendering with zeros to width `k` (as `%Y`/`%m`/`%d`
do). -/
def padZeros (k n : Nat) : List Char :=
  List.replicate (k - (Nat.toDigits 10 n).length) '0' ++ Nat.toDigits 10 n

/-- `strftime('%Y/%m/%d')` on a civil date. -/
def formatYMD : Int × Nat × Nat → List Char
  | (y, m, d) => padZeros 4 y.toNat ++ "/".data ++ padZeros 2 m ++ "/".data ++ padZeros 2 d

/-- `end_date` string: first `datetime.now()` reading minus `days_back`
days (lines 137, 142). -/
def endDateStr (now1 daysBack : Int) : List Char :=
  formatYMD (civilFromDays (now1 - daysBack))

/-- `start_date` string: second `datetime.now()` reading minus `days_back`
days (lines 138, 141). -/
def startDateStr (now2 daysBack : Int) : List Char :=
  formatYMD (civilFromDays (now2 - daysBack))

/-- The full query as built at run time (lines 137-162). -/
def buildSearchQuery (now1 now2 daysBack : Int)
    (keywords journals : List (List Char)) : List Char :=
  mkQuery keywords journals (startDateStr now2 daysBack) (endDateStr now1 daysBack)

/-- C6: when the two `datetime.now()` readings coincide (a single current
date `t`), the date-range clause of the built query has its start string
equal to its end string, both the `%Y/%m/%d` rendering of `t - daysBack`:
the query restricts publication dates to a single-day window. -/
theorem buildSearchQuery_single_day (t daysBack : Int) (K J : List (List Char)) :
    startDateStr t daysBack = endDateStr t daysBack ∧
    startDateStr t daysBack = formatYMD (civilFromDays (t - daysBack)) ∧
    buildSearchQuery t t daysBack K J =
      mkQuery K J (formatYMD (civilFromDays (t - daysBack)))
        (formatYMD (civilFromDays (t - daysBack))) :=
  ⟨rfl, rfl, rfl⟩

/-- Witness for C6 at concrete inputs. -/
theorem buildSearchQuery_single_day_witness :
    startDateStr 20355 1 = endDateStr 20355 1 :=
  (buildSearchQuery_single_day 20355 1 [] []).1

/-- Mismatching heads refute an initial-block test. -/
theorem startsWithL_cons_ne (p c : Char) (ps cs : List Char) (h : ¬p = c) :
    startsWithL (p :: ps) (c :: cs) = false := by
  simp [startsWithL, h]

/-- A `'['`-led pattern has no occurrence starting inside bracket-free
text. -/
theorem countOccs_skip (pt : List Char) : ∀ (a b : List Char), '[' ∉ a →
    countOccs ('[' :: pt) (a ++ b) = countOccs ('[' :: pt) b := by
  intro a
  induction a with
  | nil => intro b _; rfl
  | cons c a' ih =>
    intro b h
    have hc : ¬('[' = c) := fun hh => h (hh ▸ List.mem_cons_self c a')
    rw [List.cons_append, countOccs, startsWithL_cons_ne '[' c _ _ hc]
    simp only [Bool.false_eq_true, if_false, Nat.zero_add]
    exact ih b (fun hm => h (List.mem_cons_of_mem c hm))

/-- A `'['`-led pattern does not occur in bracket-free text. -/
theorem countOccs_of_no_bracket (pt l : List Char) (h : '[' ∉ l) :
    countOccs ('[' :: pt) l = 0 := by
  have h2 := countOccs_skip pt l [] h
  rw [List.append_nil] at h2
  exact h2

/-- Counting over an occurrence of the pattern itself. -/
theorem countOccs_hit (pt : List Char) (hpt : '[' ∉ pt) (b : List Char) :
    countOccs ('[' :: pt) ('[' :: (pt ++ b)) = 1 + countOccs ('[' :: pt) b := by
  rw [countOccs]
  have hsw : startsWithL ('[' :: pt) ('[' :: (pt ++ b)) = true := by
    have h2 := startsWithL_append ('[' :: pt) b
    rwa [List.cons_append] at h2
  rw [if_pos hsw, countOccs_skip pt pt b hpt]

/-- Counting over a different bracket-tagged block: no occurrence starts
at or inside it. -/
theorem countOccs_block (pt u : List Char) (hu : '[' ∉ u) (b : List Char)
    (hne : startsWithL pt (u ++ b) = false) :
    countOccs ('[' :: pt) ('[' :: (u ++ b)) = countOccs ('[' :: pt) b := by
  rw [countOccs]
  have hsw : ¬startsWithL ('[' :: pt) ('[' :: (u ++ b)) = true := by
    rw [startsWithL]
    simp [hne]
  rw [if_neg hsw, countOccs_skip pt u b hu, Nat.zero_add]

/-- Counting over a trailing different bracket-tagged block. -/
theorem countOccs_block_end (pt u : List Char) (hu : '[' ∉ u)
    (hne : startsWithL pt u = false) : countOccs ('[' :: pt) ('[' :: u) = 0 := by
  have hb := countOccs_block pt u hu [] (by rwa [List.append_nil])
  rw [List.append_nil] at hb
  exact hb

/-- The `OR`-joined clause whose every term is tagged with the counted
pattern contributes exactly one occurrence per term. -/
theorem countOccs_clause_hit (pt : List Char) (hpt : '[' ∉ pt) :
    ∀ (K : List (List Char)) (b : List Char), (∀ kw ∈ K, '[' ∉ kw) →
    countOccs ('[' :: pt)
      (joinWith " OR ".data (K.map (fun kw => kw ++ '[' :: pt)) ++ b) =
      K.length + countOccs ('[' :: pt) b := by
  intro K
  induction K with
  | nil => intro b _; simp [joinWith]
  | cons kw K ih =>
    intro b hK
    match K with
    | [] =>
      show countOccs ('[' :: pt) ((kw ++ '[' :: pt) ++ b) = 1 + countOccs ('[' :: pt) b
      rw [List.append_assoc, countOccs_skip pt kw _ (hK kw (by simp)),
        List.cons_append, countOccs_hit pt hpt b]
    | kw2 :: K' =>
      have hrec : joinWith " OR ".data ((kw :: kw2 :: K').map (fun kw => kw ++ '[' :: pt)) =
          (kw ++ '[' :: pt) ++ " OR ".data ++
            joinWith " OR ".data ((kw2 :: K').map (fun kw => kw ++ '[' :: pt)) := by
        rw [List.map_cons, List.map_cons, joinWith]
      rw [hrec]
      simp only [List.append_assoc]
      rw [List.cons_append, countOccs_skip pt kw _ (hK kw (by simp)), countOccs_hit pt hpt _,
        countOccs_skip pt " OR ".data _ (by decide),
        ih b (fun j hj => hK j (List.mem_cons_of_mem kw hj))]
      simp only [List.length_cons]
      omega

/-- The `OR`-joined clause whose every term is tagged with a different
bracket tag contributes no occurrence of the counted pattern. -/
theorem countOccs_clause_miss (pt u : List Char) (hu : '[' ∉ u)
    (hne : ∀ b, startsWithL pt (u ++ b) = false) :
    ∀ (J : List (List Char)) (b : List Char), (∀ j ∈ J, '[' ∉ j) →
    countOccs ('[' :: pt)
      (joinWith " OR ".data (J.map (fun j => j ++ '[' :: u)) ++ b) =
      countOccs ('[' :: pt) b := by
  intro J
  induction J with
  | nil => intro b _; simp [joinWith]
  | cons j J ih =>
    intro b hJ
    match J with
    | [] =>
      show countOccs ('[' :: pt) ((j ++ '[' :: u) ++ b) = countOccs ('[' :: pt) b
      rw [List.append_assoc, countOccs_skip pt j _ (hJ j (by simp)),
        List.cons_append, countOccs_block pt u hu b (hne b)]
    | j2 :: J' =>
      have hrec : joinWith " OR ".data ((j :: j2 :: J').map (fun j => j ++ '[' :: u)) =
          (j ++ '[' :: u) ++ " OR ".data ++
            joinWith " OR ".data ((j2 :: J').map (fun j => j ++ '[' :: u)) := by
        rw [List.map_cons, List.map_cons, joinWith]
      rw [hrec]
      simp only [List.append_assoc]
      rw [List.cons_append, countOccs_skip pt j _ (hJ j (by simp)), countOccs_block pt u hu _ (hne _),
        countOccs_skip pt " OR ".data _ (by decide),
        ih b (fun x hx => hJ x (List.mem_cons_of_mem j hx))]

/-- `titleAbstractTag` decomposed as a `'['`-led pattern. -/
theorem titleAbstractTag_cons : titleAbstractTag = '[' :: "Title/Abstract]".data := rfl

/-- `journalTag` decomposed as a `'['`-led pattern. -/
theorem journalTag_cons : journalTag = '[' :: "Journal]".data := rfl

/-- `publicationTypeFilter` decomposed around its `'['`. -/
theorem publicationTypeFilter_split (b : List Char) :
    publicationTypeFilter ++ b =
      "Journal Article".data ++ ('[' :: ("Publication Type]".data ++ b)) := rfl

/-- C5 counterexample: the claim quantifies over ALL keyword lists, but a
keyword containing the tag text itself inflates the count: with the single
keyword `"[Title/Abstract]"` the query contains two occurrences, not one. -/
theorem mkQuery_count_violation :
    countOccs titleAbstractTag (mkQuery ["[Title/Abstract]".data] [] [] []) ≠
      (["[Title/Abstract]".data] : List (List Char)).length := by
  decide

/-- C5 amended: provided no keyword, journal, or date string contains the
character `'['`, the built query contains exactly `len(K)` occurrences of
`[Title/Abstract]` and exactly `len(J)` occurrences of `[Journal]` (the
terms of each clause being OR-joined), and always contains the literal
clause `Journal Article[Publication Type]`. -/
theorem mkQuery_counts (K J : List (List Char)) (s e : List Char)
    (hK : ∀ kw ∈ K, '[' ∉ kw) (hJ : ∀ j ∈ J, '[' ∉ j)
    (hs : '[' ∉ s) (he : '[' ∉ e) :
    countOccs titleAbstractTag (mkQuery K J s e) = K.length ∧
    countOccs journalTag (mkQuery K J s e) = J.length ∧
    publicationTypeFilter <:+: mkQuery K J s e := by
  refine ⟨?_, ?_, ?_⟩
  · rw [titleAbstractTag_cons]
    simp only [mkQuery, titleAbstractTag_cons, journalTag_cons, List.append_assoc]
    rw [countOccs_skip _ "((".data _ (by decide),
      countOccs_clause_hit "Title/Abstract]".data (by decide) K _ hK]
    refine (congrArg (fun n => K.length + n) ?_).trans (Nat.add_zero _)
    rw [countOccs_skip _ ")) AND (".data _ (by decide),
      countOccs_clause_miss "Title/Abstract]".data "Journal]".data (by decide)
        (fun b => startsWithL_cons_ne 'T' 'J' _ _ (by decide)) J _ hJ,
      countOccs_skip _ ") AND ".data _ (by decide), publicationTypeFilter_split,
      countOccs_skip _ "Journal Article".data _ (by decide),
      countOccs_block "Title/Abstract]".data "Publication Type]".data (by decide) _
        (startsWithL_cons_ne 'T' 'P' _ _ (by decide)),
      countOccs_skip _ " AND ".data _ (by decide), countOccs_skip _ s _ hs,
      countOccs_skip _ ":".data _ (by decide), countOccs_skip _ e _ he]
    exact countOccs_block_end "Title/Abstract]".data "Date - Publication]".data
      (by decide) (startsWithL_cons_ne 'T' 'D' _ _ (by decide))
  · rw [journalTag_cons]
    simp only [mkQuery, titleAbstractTag_cons, journalTag_cons, List.append_assoc]
    rw [countOccs_skip _ "((".data _ (by decide),
      countOccs_clause_miss "Journal]".data "Title/Abstract]".data (by decide)
        (fun b => startsWithL_cons_ne 'J' 'T' _ _ (by decide)) K _ hK,
      countOccs_skip _ ")) AND (".data _ (by decide),
      countOccs_clause_hit "Journal]".data (by decide) J _ hJ]
    refine (congrArg (fun n => J.length + n) ?_).trans (Nat.add_zero _)
    rw [countOccs_skip _ ") AND ".data _ (by decide), publicationTypeFilter_split,
      countOccs_skip _ "Journal Article".data _ (by decide),
      countOccs_block "Journal]".data "Publication Type]".data (by decide) _
        (startsWithL_cons_ne 'J' 'P' _ _ (by decide)),
      countOccs_skip _ " AND ".data _ (by decide), countOccs_skip _ s _ hs,
      countOccs_skip _ ":".data _ (by decide), countOccs_skip _ e _ he]
    exact countOccs_block_end "Journal]".data "Date - Publication]".data
      (by decide) (startsWithL_cons_ne 'J' 'D' _ _ (by decide))
  · refine ⟨"((".data ++ (joinWith " OR ".data (K.map (fun kw => kw ++ titleAbstractTag)) ++
      (")) AND (".data ++ (joinWith " OR ".data (J.map (fun j => j ++ journalTag)) ++
        ") AND ".data))),
      " AND ".data ++ (s ++ (":".data ++ (e ++ "[Date - Publication]".data))), ?_⟩
    simp [mkQuery, List.append_assoc]

/-- Witness for the amended C5 at concrete inputs. -/
theorem mkQuery_counts_witness :
    (∀ kw ∈ ["genomics".data], '[' ∉ kw) ∧ (∀ j ∈ ["Nature".data], '[' ∉ j) ∧
      '[' ∉ "2025/01/01".data ∧
      countOccs titleAbstractTag
        (mkQuery ["genomics".data] ["Nature".data] "2025/01/01".data
          "2025/01/01".data) = (["genomics".data] : List (List Char)).length :=
  ⟨by decide, by decide, by decide,
    (mkQuery_counts ["genomics".data] ["Nature".data] "2025/01/01".data
      "2025/01/01".data (by decide) (by decide) (by decide) (by decide)).1⟩

/-! ### Record Extractor (`genomics-daily.py`, lines 63-110 and 196-250)

`xml.etree.ElementTree` elements are modelled as trees with a tag, an
optional text, a children list, and an optional tail. -/

mutual
/-- An ElementTree element; children are given by the mutually defined
forest type. -/
inductive Xml where
  | elem (tag : List Char) (text : Option (List Char)) (children : XmlForest)
      (tail : Option (List Char))
/-- A children sequence: a plain linked list of elements. -/
inductive XmlForest where
  | nil
  | cons (hd : Xml) (tl : XmlForest)
end

/-- Build a forest from an ordinary list of elements. -/
def XmlForest.ofList : List Xml → XmlForest
  | [] => .nil
  | x :: xs => .cons x (XmlForest.ofList xs)

/-- The element's tag. -/
def Xml.tag : Xml → List Char
  | .elem t _ _ _ => t

/-- The element's `.text` (None or a string). -/
def Xml.text : Xml → Option (List Char)
  | .elem _ tx _ _ => tx

/-- The element's children, in document order. -/
def Xml.children : Xml → XmlForest
  | .elem _ _ ch _ => ch

/-- The element's `.tail` (None or a string). -/
def Xml.tailText : Xml → Option (List Char)
  | .elem _ _ _ tl => tl

/-- Contribution of an optional string under Python truthiness: `if x:`
keeps only a non-None, nonempty string. -/
def truthyPart : Option (List Char) → List (List Char)
  | some t => if t = [] then [] else [t]
  | none => []

/-- The parts accumulated by `get_full_text` (lines 63-76) over a forest
of children: for each child, its own full text (if truthy) then its tail
(if truthy), in order. -/
def gftChildren : XmlForest → List (List Char)
  | .nil => []
  | .cons (.elem _ tx ch tl) cs =>
    (let ct := joinWith [' '] (truthyPart tx ++ gftChildren ch)
     if ct = [] then [] else [ct]) ++ truthyPart tl ++ gftChildren cs

/-- Embedding of `get_full_text` (lines 63-76): the element's text (if
truthy) and the recursive texts and tails of its children, joined by
single spaces. -/
def get_full_text (e : Xml) : List Char :=
  joinWith [' '] (truthyPart e.text ++ gftChildren e.children)

/-- `element.findall('.//t')` over a children forest: all descendants with
tag `t`, in document order (pre-order). -/
def findallDesc (tag : List Char) : XmlForest → List Xml
  | .nil => []
  | .cons (.elem t tx ch tl) cs =>
    (if t = tag then [Xml.elem t tx ch tl] else []) ++
      findallDesc tag ch ++ findallDesc tag cs

/-- `element.find('.//t')`: first matching descendant, if any. -/
def findDesc (tag : List Char) (e : Xml) : Option Xml :=
  (findallDesc tag e.children).head?

/-- The direct children with a given tag, in order. -/
def forestFilterTag (tag : List Char) : XmlForest → List Xml
  | .nil => []
  | .cons c cs => (if c.tag = tag then [c] else []) ++ forestFilterTag tag cs

/-- `element.find('t')`: first matching direct child, if any. -/
def findChild (tag : List Char) (e : Xml) : Option Xml :=
  (forestFilterTag tag e.children).head?

/-- Embedding of `clean_title_text` (lines 87-95). -/
def clean_title_text : Option Xml → List Char
  | none => "N/A".data
  | some e =>
    let ct := clean_text (get_full_text e)
    if ct = [] then "N/A".data else ct

/-- Embedding of `clean_abstract_text` (lines 97-110): each
`.//AbstractText` descendant is recursively flattened and cleaned
independently; the parts are space-joined; an empty result (in particular
a missing `Abstract` element) yields the sentinel `"N/A"`. -/
def clean_abstract_text : Option Xml → List Char
  | none => "N/A".data
  | some abstract =>
    let parts := (findallDesc "AbstractText".data abstract.children).map
      (fun te => clean_text (get_full_text te))
    let full := joinWith [' '] parts
    if full = [] then "N/A".data else full

/-- Python's rendering of an optional string inside an f-string:
`None` prints as `"None"`. -/
def pyStrOfOpt : Option (List Char) → List Char
  | none => "None".data
  | some t => t

/-- The author-name comprehension (lines 205-209): all `.//Author`
descendants having both a `LastName` and a `ForeName` child, rendered
`"Last First"` (element texts through f-string rendering). -/
def authorNames (article : Xml) : List (List Char) :=
  (findallDesc "Author".data article.children).filterMap (fun a =>
    match findChild "LastName".data a, findChild "ForeName".data a with
    | some ln, some fn => some (pyStrOfOpt ln.text ++ " ".data ++ pyStrOfOpt fn.text)
    | _, _ => none)

/-- The Authors field expression (line 236):
`', '.join(author_names[:3]) + (', et al.' if len(author_names) > 3 else '')`. -/
def renderAuthors (ns : List (List Char)) : List Char :=
  joinWith ", ".data (ns.take 3) ++ (if ns.length > 3 then ", et al.".data else [])

/-- One extracted paper record (the dict built at lines 234-242).
`Journal` is an `Option` because Python stores `journal.text`, which may be
`None`, when a `Title` element exists without text. -/
structure Paper where
  Title : List Char
  Authors : List Char
  Journal : Option (List Char)
  PublicationYear : List Char
  PMID : List Char
  Link : List Char
  Abstract : List Char
deriving DecidableEq

/-- Embedding of the per-article extraction (lines 197-244).  The body is
total except for one case: when a `PMID` element exists but its text is
`None`, the link concatenation `'https://pubmed.ncbi.nlm.nih.gov/' + None`
raises `TypeError`; the per-article `except` catches it and drops the
article — modelled by `none`. -/
def extractRecord (article : Xml) : Option Paper :=
  let title := clean_title_text (findDesc "ArticleTitle".data article)
  let names := authorNames article
  let abstract_text := clean_abstract_text (findDesc "Abstract".data article)
  let journal_name : Option (List Char) :=
    match findDesc "Title".data article with
    | some j => j.text
    | none => some "N/A".data
  let publication_date :=
    match findDesc "PubDate".data article with
    | some pd =>
      match findChild "Year".data pd with
      | some y => pyStrOfOpt y.text
      | none => "N/A".data
    | none => "N/A".data
  match findDesc "PMID".data article with
  | some p =>
    match p.text with
    | some t =>
      some { Title := title, Authors := renderAuthors names, Journal := journal_name,
             PublicationYear := publication_date, PMID := t,
             Link := "https://pubmed.ncbi.nlm.nih.gov/".data ++ t,
             Abstract := abstract_text }
    | none => none
  | none =>
    some { Title := title, Authors := renderAuthors names, Journal := journal_name,
           PublicationYear := publication_date, PMID := "N/A".data,
           Link := "N/A".data, Abstract := abstract_text }

/-- Deduplication scan keeping the first record for each `PMID`. -/
def dropDupAux (seen : List (List Char)) : List Paper → List Paper
  | [] => []
  | p :: rest =>
    if p.PMID ∈ seen then dropDupAux seen rest
    else p :: dropDupAux (p.PMID :: seen) rest

/-- Embedding of `df.drop_duplicates(subset=['PMID'])` with the default
`keep='first'` (line 248). -/
def drop_duplicates (l : List Paper) : List Paper := dropDupAux [] l

/-- The dedup scan preserves document order: its output is a sublist of
its input. -/
theorem dropDupAux_sublist : ∀ (seen : List (List Char)) (l : List Paper),
    (dropDupAux seen l).Sublist l := by
  intro seen l
  induction l generalizing seen with
  | nil => exact List.Sublist.refl []
  | cons p rest ih =>
    rw [dropDupAux]
    split
    · exact List.Sublist.cons p (ih seen)
    · exact List.Sublist.cons₂ p (ih _)

/-- Characterization of the dedup scan: the records with a given `PMID`
surviving the scan are none if that key was already seen, and exactly the
first matching input record otherwise. -/
theorem dropDupAux_filter : ∀ (l : List Paper) (seen : List (List Char)) (pm : List Char),
    (dropDupAux seen l).filter (fun p => p.PMID = pm) =
      if pm ∈ seen then [] else (l.filter (fun p => p.PMID = pm)).take 1 := by
  intro l
  induction l with
  | nil =>
    intro seen pm
    rw [dropDupAux]
    split <;> simp
  | cons p rest ih =>
    intro seen pm
    rw [dropDupAux]
    by_cases hseen : p.PMID ∈ seen
    · rw [if_pos hseen, ih seen pm]
      by_cases hpm : pm ∈ seen
      · rw [if_pos hpm, if_pos hpm]
      · have hne : ¬(p.PMID = pm) := fun hh => hpm (hh ▸ hseen)
        rw [if_neg hpm, if_neg hpm, List.filter_cons, if_neg (by simpa using hne)]
    · rw [if_neg hseen]
      by_cases hpm : p.PMID = pm
      · subst hpm
        rw [List.filter_cons, if_pos (by simp), ih (p.PMID :: seen) p.PMID,
          if_pos (List.mem_cons_self _ _), if_neg hseen, List.filter_cons,
          if_pos (by simp)]
        rfl
      · rw [List.filter_cons, if_neg (by simpa using hpm), ih (p.PMID :: seen) pm]
        have hmem : (pm ∈ p.PMID :: seen) ↔ pm ∈ seen := by
          rw [List.mem_cons]
          constructor
          · rintro (rfl | hh)
            · exact absurd rfl hpm
            · exact hh
          · exact Or.inr
        by_cases hpmseen : pm ∈ seen
        · rw [if_pos (hmem.mpr hpmseen), if_pos hpmseen]
        · rw [if_neg (fun hh => hpmseen (hmem.mp hh)), if_neg hpmseen,
            List.filter_cons, if_neg (by simpa using hpm)]

/-- C4: deduplication by `PMID` (pandas `drop_duplicates(subset=['PMID'])`,
`keep='first'`) yields a sublist of the input (document order preserved)
in which, for every identifier, exactly the first input record carrying it
survives. -/
theorem drop_duplicates_by_pmid (l : List Paper) :
    (drop_duplicates l).Sublist l ∧
    ∀ pm : List Char, (drop_duplicates l).filter (fun p => p.PMID = pm) =
      (l.filter (fun p => p.PMID = pm)).take 1 := by
  refine ⟨dropDupAux_sublist [] l, ?_⟩
  intro pm
  rw [drop_duplicates, dropDupAux_filter l [] pm, if_neg (by simp)]

/-- Witness for C4 on a concrete batch with a duplicated identifier. -/
theorem drop_duplicates_by_pmid_witness :
    (drop_duplicates
        [⟨"a".data, [], none, "2024".data, "1".data, "u1".data, "A1".data⟩,
         ⟨"b".data, [], none, "2024".data, "1".data, "u1".data, "A2".data⟩,
         ⟨"c".data, [], none, "2024".data, "2".data, "u2".data, "A3".data⟩]).filter
        (fun p => p.PMID = "1".data) =
      (([⟨"a".data, [], none, "2024".data, "1".data, "u1".data, "A1".data⟩,
        ⟨"b".data, [], none, "2024".data, "1".data, "u1".data, "A2".data⟩,
        ⟨"c".data, [], none, "2024".data, "2".data, "u2".data, "A3".data⟩] :
          List Paper).filter (fun p => p.PMID = "1".data)).take 1 :=
  (drop_duplicates_by_pmid _).2 "1".data

/-- Guard isolating the one fallible step of per-article extraction: if a
`PMID` element is present, its text is not `None` (otherwise the link
concatenation raises and the article is dropped). -/
def pmidTextOk (article : Xml) : Bool :=
  match findDesc "PMID".data article with
  | some p => p.text.isSome
  | none => true

/-- C8 counterexample article: `Abstract` is absent, and the `PMID`
element has no text. -/
def pmidNoTextArticle : Xml :=
  Xml.elem "PubmedArticle".data none
    (XmlForest.ofList [Xml.elem "PMID".data none .nil none]) none

/-- C8 counterexample: this article has no `Abstract` element, yet
extraction yields NO record at all (the Python code raises `TypeError` on
`'https://pubmed.ncbi.nlm.nih.gov/' + None`, caught by the per-article
handler, which drops the article), contradicting the claim that a record
with `Abstract == "N/A"` is yielded. -/
theorem extractRecord_drops_empty_pmid :
    (findDesc "Abstract".data pmidNoTextArticle).isNone = true ∧
      extractRecord pmidNoTextArticle = none :=
  ⟨by decide, by decide⟩

/-- C8 amended: `clean_abstract_text` of a missing element is the sentinel
`"N/A"`; and every article without an `Abstract` element whose `PMID`
element (if any) has text is extracted into a record whose `Abstract`
field is `"N/A"`, without failing. -/
theorem extractRecord_missing_abstract (article : Xml)
    (hab : (findDesc "Abstract".data article).isNone = true)
    (hpm : pmidTextOk article = true) :
    clean_abstract_text none = "N/A".data ∧
      ∃ r, extractRecord article = some r ∧ r.Abstract = "N/A".data := by
  refine ⟨rfl, ?_⟩
  have hab' : findDesc "Abstract".data article = none := by
    rwa [Option.isNone_iff_eq_none] at hab
  simp only [extractRecord]
  split
  · rename_i p heq1
    split
    · refine ⟨_, rfl, ?_⟩
      show clean_abstract_text (findDesc "Abstract".data article) = "N/A".data
      rw [hab']
      rfl
    · rename_i heq2
      have hps : p.text.isSome = true := by
        rw [pmidTextOk, heq1] at hpm
        exact hpm
      rw [heq2] at hps
      cases hps
  · refine ⟨_, rfl, ?_⟩
    show clean_abstract_text (findDesc "Abstract".data article) = "N/A".data
    rw [hab']
    rfl

/-- Witness article for the amended C8: no `Abstract`, `PMID` with text. -/
def withPmidArticle : Xml :=
  Xml.elem "PubmedArticle".data none
    (XmlForest.ofList [Xml.elem "PMID".data (some "12345".data) .nil none]) none

/-- Witness for the amended C8 at a concrete article. -/
theorem extractRecord_missing_abstract_witness :
    (findDesc "Abstract".data withPmidArticle).isNone = true ∧
      pmidTextOk withPmidArticle = true ∧
      (clean_abstract_text none = "N/A".data ∧
        ∃ r, extractRecord withPmidArticle = some r ∧ r.Abstract = "N/A".data) := by
  have h1 : (findDesc "Abstract".data withPmidArticle).isNone = true := by decide
  have h2 : pmidTextOk withPmidArticle = true := by decide
  exact ⟨h1, h2, extractRecord_missing_abstract withPmidArticle h1 h2⟩

/-- The Authors rendering as the specification words it: at most the first
three names joined by `", "`, with `", et al."` appended iff more than
three names exist. -/
def specRenderAuthors (ns : List (List Char)) : List Char :=
  if ns.length ≤ 3 then joinWith ", ".data ns
  else joinWith ", ".data (ns.take 3) ++ ", et al.".data

/-- The code's rendering agrees with the specification's. -/
theorem renderAuthors_eq_spec (ns : List (List Char)) :
    renderAuthors ns = specRenderAuthors ns := by
  rw [renderAuthors, specRenderAuthors]
  by_cases h : ns.length ≤ 3
  · rw [if_pos h, if_neg (by omega), List.take_of_length_le h, List.append_nil]
  · rw [if_neg h, if_pos (by omega)]

/-- C9: every record produced by extraction carries the Authors field
rendered from the skip-filtered author names — at most the first three
`"Last First"` names, `", "`-joined, with `", et al."` iff more than three
such names exist. -/
theorem extractRecord_authors (article : Xml) (r : Paper)
    (h : extractRecord article = some r) :
    r.Authors = specRenderAuthors (authorNames article) := by
  rw [← renderAuthors_eq_spec]
  simp only [extractRecord] at h
  split at h
  · split at h
    · injection h with h2
      rw [← h2]
    · cases h
  · injection h with h2
    rw [← h2]

/-- An `Author` element with both `LastName` and `ForeName` children. -/
def mkAuthor (ln fn : List Char) : Xml :=
  Xml.elem "Author".data none
    (XmlForest.ofList
      [Xml.elem "LastName".data (some ln) .nil none,
       Xml.elem "ForeName".data (some fn) .nil none]) none

/-- Witness article for C9: four complete authors plus one author missing
its `ForeName` (which is skipped before counting). -/
def fourAuthorsArticle : Xml :=
  Xml.elem "PubmedArticle".data none
    (XmlForest.ofList
      [Xml.elem "PMID".data (some "7".data) .nil none,
       mkAuthor "Aa".data "Bb".data,
       mkAuthor "Cc".data "Dd".data,
       Xml.elem "Author".data none
         (XmlForest.ofList [Xml.elem "LastName".data (some "Xx".data) .nil none]) none,
       mkAuthor "Ee".data "Ff".data,
       mkAuthor "Gg".data "Hh".data]) none

/-- Witness for C9: on the concrete article the extracted Authors field is
the first three names joined with `", "` plus `", et al."`. -/
theorem extractRecord_authors_witness :
    extractRecord fourAuthorsArticle =
        some ⟨"N/A".data, "Aa Bb, Cc Dd, Ee Ff, et al.".data, some "N/A".data,
          "N/A".data, "7".data, "https://pubmed.ncbi.nlm.nih.gov/7".data, "N/A".data⟩ ∧
      Paper.Authors ⟨"N/A".data, "Aa Bb, Cc Dd, Ee Ff, et al.".data, some "N/A".data,
          "N/A".data, "7".data, "https://pubmed.ncbi.nlm.nih.gov/7".data, "N/A".data⟩ =
        specRenderAuthors (authorNames fourAuthorsArticle) := by
  have hEval : extractRecord fourAuthorsArticle =
      some ⟨"N/A".data, "Aa Bb, Cc Dd, Ee Ff, et al.".data, some "N/A".data,
        "N/A".data, "7".data, "https://pubmed.ncbi.nlm.nih.gov/7".data, "N/A".data⟩ := by
    decide
  exact ⟨hEval, extractRecord_authors fourAuthorsArticle _ hEval⟩

end GenomicsDaily
